import Mathlib

/-!
Verification of the Chebyshev spectral routines in `ChebySpec.py`
(`GLpoints` and `findCoeffs`).  Python/numpy floating-point reals are
modelled by `ℝ`.  Failure modelling follows Python semantics:

* `GLpoints(N)`: `np.zeros(N+1)` raises `ValueError` when `N+1 < 0`
  (hence `none` for `N ≤ -2`); the loop body computes `np.pi*j/N`, a
  Python `float / int` division, which raises `ZeroDivisionError` when
  `N = 0` and the loop is nonempty (hence `none` for `N = 0`); for
  `N = -1` the loop is empty and the empty array is returned.
* `findCoeffs(U, X)`: when `len(X) = 0` the statement `c[0] = 2` raises
  `IndexError` on the empty array `c` (hence `none`); when
  `len(U) < len(X)` the access `U[j]` raises `IndexError` before any
  result is produced (hence `none`).  The float division `2./(N*c[k])`
  is numpy `float64` division: at a zero divisor it yields `inf` with a
  `RuntimeWarning` and the function still returns an array, so division
  is total in the embedding and a zero divisor is not a failure.
-/

open Real Finset

/-- The quadrature-weight array `c` built in `findCoeffs`:
`c = np.ones(N+1); c[0] = 2; c[-1] = 2`, so `c[j] = 2` for `j = 0` and
`j = N` and `c[j] = 1` otherwise.  (For `N = 0` the two assignments hit
the same single cell, which the predicate also captures.) -/
def cw (N j : ℕ) : ℝ := if j = 0 ∨ j = N then 2 else 1

/-- The coefficient array `d` built in the `k`-loop of `findCoeffs`:
`d = np.zeros(k+1); d[-1] = 1`, i.e. `k` zeros followed by a single 1. -/
def mkD (k : ℕ) : List ℝ := List.replicate k 0 ++ [1]

/-- `numpy.polynomial.chebyshev.chebval` for a scalar point `x` and a
coefficient list `c`, transcribed from its source: Clenshaw recursion
with state `(c0, c1)` initialised at the last two coefficients and the
loop running over `c[-i]` for `i = 3 .. len(c)`, i.e. over the first
`len(c) - 2` coefficients in reverse order; the result is `c0 + c1*x`.
(The `len(c) = 0` case never arises from `findCoeffs`, whose `d` always
has length `k+1 ≥ 1`.) -/
def chebval (x : ℝ) (c : List ℝ) : ℝ :=
  if c.length ≤ 1 then c.getD 0 0
  else if c.length = 2 then c.getD 0 0 + c.getD 1 0 * x
  else
    let p := ((c.take (c.length - 2)).reverse).foldl
      (fun (s : ℝ × ℝ) a => (a - s.2, s.1 + s.2 * (2 * x)))
      (c.getD (c.length - 2) 0, c.getD (c.length - 1) 0)
    p.1 + p.2 * x

/-- Chebyshev polynomials of the first kind by the three-term
recurrence of the specification: `T 0 = 1`, `T 1 = x`,
`T (k+2) = 2x * T (k+1) - T k`. -/
def chebT : ℕ → ℝ → ℝ
  | 0, _ => 1
  | 1, x => x
  | n + 2, x => 2 * x * chebT (n + 1) x - chebT n x

/-- Chebyshev polynomials of the second kind (`U 0 = 1`, `U 1 = 2x`,
same recurrence), used to describe the Clenshaw loop state. -/
def chebU : ℕ → ℝ → ℝ
  | 0, _ => 1
  | 1, x => 2 * x
  | n + 2, x => 2 * x * chebU (n + 1) x - chebU n x

/-- `GLpoints` from `ChebySpec.py`, with Python failure semantics as
described in the file comment: `none` for `N ≤ -2` (negative array
size) and for `N = 0` (division by zero in `np.pi*j/N`); otherwise the
array with entries `-cos(π·j/N)` for `j = 0 .. N`. -/
noncomputable def GLpoints (N : ℤ) : Option (List ℝ) :=
  if N ≤ -2 then none
  else if N = 0 then none
  else some ((List.range (N + 1).toNat).map
    (fun j : ℕ => -Real.cos (Real.pi * j / (N : ℝ))))

/-- The successful value of `GLpoints` at a positive degree, as a list
indexed by naturals. -/
noncomputable def GLgrid (N : ℕ) : List ℝ :=
  (List.range (N + 1)).map (fun j : ℕ => -Real.cos (Real.pi * j / (N : ℝ)))

/-- `findCoeffs` from `ChebySpec.py`: `N = len(X) - 1`, weights `c` as
in `cw`, and for each `k = 0 .. N` the value
`m * Σ_j U[j] * chebval(X[j], d) / c[j]` with `m = 2/(N*c[k])` and `d`
the one-hot array `mkD k`.  `none` models the `IndexError` cases
(`len(X) = 0`, or `len(U) < len(X)`); see the file comment. -/
noncomputable def findCoeffs (U X : List ℝ) : Option (List ℝ) :=
  let N := X.length - 1
  if X.length = 0 then none
  else if U.length < N + 1 then none
  else some ((List.range (N + 1)).map (fun k =>
    (2 / ((N : ℝ) * cw N k)) *
      ∑ j ∈ Finset.range (N + 1),
        U.getD j 0 * chebval (X.getD j 0) (mkD k) / cw N j))

/-! ### Generic indexing helpers -/

lemma map_range_getD (n k : ℕ) (f : ℕ → ℝ) (h : k < n) :
    ((List.range n).map f).getD k 0 = f k := by
  rw [List.getD_eq_getElem?_getD, List.getElem?_map, List.getElem?_range h]
  rfl

lemma getD_map_lt (l : List ℝ) (f : ℝ → ℝ) (j : ℕ) (h : j < l.length) :
    (l.map f).getD j 0 = f (l.getD j 0) := by
  rw [List.getD_eq_getElem?_getD, List.getD_eq_getElem?_getD, List.getElem?_map,
    List.getElem?_eq_getElem h]
  rfl

lemma getD_take_lt (l : List ℝ) (n j : ℕ) (h : j < n) :
    (l.take n).getD j 0 = l.getD j 0 := by
  rw [List.getD_eq_getElem?_getD, List.getD_eq_getElem?_getD,
    List.getElem?_take_of_lt h]

lemma getD_zipWith (f : ℝ → ℝ → ℝ) (l1 l2 : List ℝ) (j : ℕ)
    (h1 : j < l1.length) (h2 : j < l2.length) :
    (List.zipWith f l1 l2).getD j 0 = f (l1.getD j 0) (l2.getD j 0) := by
  have hz : j < (List.zipWith f l1 l2).length := by
    rw [List.length_zipWith]
    omega
  rw [List.getD_eq_getElem _ _ hz, List.getD_eq_getElem _ _ h1,
    List.getD_eq_getElem _ _ h2]
  exact List.getElem_zipWith ..

/-! ### Basic facts about the weights and the grid -/

lemma cw_pos (N j : ℕ) : 0 < cw N j := by
  unfold cw; split <;> norm_num

lemma cw_ne_zero (N j : ℕ) : cw N j ≠ 0 := ne_of_gt (cw_pos N j)

lemma GLgrid_length (N : ℕ) : (GLgrid N).length = N + 1 := by
  simp [GLgrid]

lemma GLgrid_getD (N j : ℕ) (h : j ≤ N) :
    (GLgrid N).getD j 0 = -Real.cos (Real.pi * j / (N : ℝ)) := by
  unfold GLgrid
  rw [List.getD_eq_getElem?_getD, List.getElem?_map, List.getElem?_range
    (Nat.lt_succ_of_le h)]
  simp

/-! ### Clenshaw recursion on a one-hot coefficient array gives `chebT` -/

lemma chebT_step (n : ℕ) (x : ℝ) :
    chebT (n + 2) x = 2 * x * chebT (n + 1) x - chebT n x := rfl

lemma chebU_step (n : ℕ) (x : ℝ) :
    chebU (n + 2) x = 2 * x * chebU (n + 1) x - chebU n x := rfl

lemma chebT_succ_eq (x : ℝ) :
    ∀ n : ℕ, chebT (n + 1) x = chebU (n + 1) x - x * chebU n x
  | 0 => by
      show x = 2 * x - x * 1
      ring
  | 1 => by
      show 2 * x * x - 1 = (2 * x * (2 * x) - 1) - x * (2 * x)
      ring
  | n + 2 => by
      have h1 := chebT_succ_eq x (n + 1)
      have h2 := chebT_succ_eq x n
      show chebT (n + 3) x = chebU (n + 3) x - x * chebU (n + 2) x
      linear_combination (chebT_step (n + 1) x) + 2 * x * h1 - h2 -
        (chebU_step (n + 1) x) + x * (chebU_step n x)

lemma chebT_eq_U (n : ℕ) (x : ℝ) :
    chebT (n + 2) x = x * chebU (n + 1) x - chebU n x := by
  have h := chebT_succ_eq x (n + 1)
  have e := chebU_step n x
  linear_combination h + e

lemma foldl_clenshaw_replicate (x : ℝ) :
    ∀ n : ℕ,
      (List.replicate (n + 1) (0 : ℝ)).foldl
        (fun (s : ℝ × ℝ) a => (a - s.2, s.1 + s.2 * (2 * x))) (0, 1)
      = (-chebU n x, chebU (n + 1) x)
  | 0 => by
      show ((0 : ℝ) - 1, (0 : ℝ) + 1 * (2 * x)) = (-chebU 0 x, chebU 1 x)
      show ((0 : ℝ) - 1, (0 : ℝ) + 1 * (2 * x)) = (-1, 2 * x)
      norm_num
  | n + 1 => by
      rw [List.replicate_succ' (n + 1), List.foldl_append,
        foldl_clenshaw_replicate x n]
      show ((0 : ℝ) - chebU (n + 1) x,
        -chebU n x + chebU (n + 1) x * (2 * x)) = _
      refine Prod.ext ?_ ?_
      · show (0 : ℝ) - chebU (n + 1) x = -chebU (n + 1) x
        ring
      · show -chebU n x + chebU (n + 1) x * (2 * x) = chebU (n + 2) x
        rw [chebU_step]
        ring

lemma mkD_length (k : ℕ) : (mkD k).length = k + 1 := by simp [mkD]

lemma chebval_mkD (x : ℝ) : ∀ k : ℕ, chebval x (mkD k) = chebT k x
  | 0 => by
      show chebval x [1] = 1
      simp [chebval]
  | 1 => by
      show chebval x [0, 1] = x
      simp [chebval]
  | n + 2 => by
      have hlen : (mkD (n + 2)).length = n + 3 := by simp [mkD]
      have htake : (mkD (n + 2)).take (n + 1) = List.replicate (n + 1) (0 : ℝ) := by
        rw [mkD, List.take_append_of_le_length (by simp), List.take_replicate]
        congr 1
        omega
      have hg1 : (mkD (n + 2)).getD (n + 1) 0 = 0 := by
        have hlt : n + 1 < (List.replicate (n + 2) (0 : ℝ)).length := by simp
        rw [mkD, List.getD_eq_getElem?_getD, List.getElem?_append,
          if_pos hlt, List.getElem?_replicate, if_pos (by omega)]
        rfl
      have hg2 : (mkD (n + 2)).getD (n + 2) 0 = 1 := by
        rw [mkD, List.getD_eq_getElem?_getD, List.getElem?_append,
          if_neg (by simp)]
        simp
      simp only [chebval, hlen]
      rw [if_neg (by omega), if_neg (by omega)]
      have h3 : n + 3 - 2 = n + 1 := by omega
      have h4 : n + 3 - 1 = n + 2 := by omega
      rw [h3, h4, htake, hg1, hg2, List.reverse_replicate,
        foldl_clenshaw_replicate x n, chebT_eq_U]
      ring

/-! ### Chebyshev polynomials at cosines, and parity -/

lemma chebT_cos (α : ℝ) : ∀ n : ℕ, chebT n (Real.cos α) = Real.cos (n * α)
  | 0 => by simp [chebT]
  | 1 => by simp [chebT]
  | n + 2 => by
      have h1 := chebT_cos α (n + 1)
      have h2 := chebT_cos α n
      rw [chebT_step, h1, h2]
      have e1 := Real.cos_add (((n : ℝ) + 1) * α) α
      have e2 := Real.cos_sub (((n : ℝ) + 1) * α) α
      have g1 : ((n : ℝ) + 2) * α = ((n : ℝ) + 1) * α + α := by ring
      have g2 : (n : ℝ) * α = ((n : ℝ) + 1) * α - α := by ring
      push_cast
      rw [g1, g2, e1, e2]
      ring

lemma chebT_neg (x : ℝ) : ∀ n : ℕ, chebT n (-x) = (-1) ^ n * chebT n x
  | 0 => by simp [chebT]
  | 1 => by simp [chebT]
  | n + 2 => by
      rw [chebT_step n (-x), chebT_neg x (n + 1), chebT_neg x n,
        chebT_step n x]
      ring

lemma cos_nat_pi : ∀ r : ℕ, Real.cos ((r : ℝ) * π) = (-1) ^ r
  | 0 => by simp
  | r + 1 => by
      have h : ((r + 1 : ℕ) : ℝ) * π = (r : ℝ) * π + π := by push_cast; ring
      rw [h, Real.cos_add, Real.cos_pi, Real.sin_pi, cos_nat_pi r]
      ring

/-! ### The discrete cosine sums behind Gauss-Lobatto orthogonality -/

lemma cos_sum_re (θ : ℝ) (n : ℕ) :
    ∑ j ∈ Finset.range n, Real.cos (j * θ)
      = (∑ j ∈ Finset.range n, Complex.exp ((θ : ℂ) * Complex.I) ^ j).re := by
  rw [Complex.re_sum]
  apply Finset.sum_congr rfl
  intro j _
  rw [← Complex.exp_nat_mul]
  have h : (j : ℂ) * ((θ : ℂ) * Complex.I) = ((j * θ : ℝ) : ℂ) * Complex.I := by
    push_cast
    ring
  rw [h, Complex.exp_ofReal_mul_I_re]

lemma fullCosSum (N r : ℕ) (hN : 1 ≤ N) (h0 : 0 < r) (h2 : r < 2 * N) :
    ∑ j ∈ Finset.range (N + 1), Real.cos (j * ((r : ℝ) * π / N))
      = if r % 2 = 0 then 1 else 0 := by
  set θ : ℝ := (r : ℝ) * π / N with hθ
  set z : ℂ := Complex.exp ((θ : ℂ) * Complex.I) with hzdef
  have hNR : (N : ℝ) ≠ 0 := Nat.cast_ne_zero.mpr (by omega)
  have hNC : (N : ℂ) ≠ 0 := Nat.cast_ne_zero.mpr (by omega)
  have hz1 : z ≠ 1 := by
    intro hz
    rw [hzdef, Complex.exp_eq_one_iff] at hz
    obtain ⟨n, hn⟩ := hz
    have hn' : (θ : ℂ) * Complex.I = ((n : ℂ) * (2 * (π : ℂ))) * Complex.I := by
      rw [hn]; ring
    have hc : (θ : ℂ) = (n : ℂ) * (2 * (π : ℂ)) := mul_right_cancel₀ Complex.I_ne_zero hn'
    have hr : θ = (n : ℝ) * (2 * π) := by exact_mod_cast hc
    have h5 : (r : ℝ) * π = (n : ℝ) * (2 * π) * N := by
      rw [hθ] at hr
      exact (div_eq_iff hNR).mp hr
    have h4 : (r : ℝ) = (n : ℝ) * 2 * N := by
      apply mul_right_cancel₀ Real.pi_ne_zero
      linear_combination h5
    have h6 : (r : ℤ) = n * 2 * N := by exact_mod_cast h4
    have h7 : (0 : ℤ) < r := by exact_mod_cast h0
    have h8 : (r : ℤ) < 2 * N := by exact_mod_cast h2
    have h9 : (1 : ℤ) ≤ N := by exact_mod_cast hN
    rcases le_or_lt n 0 with hle | hlt
    · nlinarith
    · have : (1 : ℤ) ≤ n := hlt
      nlinarith
  have hzN : z ^ N = (-1 : ℂ) ^ r := by
    rw [hzdef, ← Complex.exp_nat_mul]
    have h : (N : ℂ) * ((θ : ℂ) * Complex.I) = (r : ℂ) * ((π : ℂ) * Complex.I) := by
      rw [hθ]
      push_cast
      field_simp
      ring
    rw [h, Complex.exp_nat_mul, Complex.exp_pi_mul_I]
  have hsum := geom_sum_eq hz1 (N + 1)
  have hzN1 : z ^ (N + 1) = (-1 : ℂ) ^ r * z := by rw [pow_succ, hzN, mul_comm]
  rcases Nat.even_or_odd r with he | ho
  · rw [if_pos (Nat.even_iff.mp he)]
    rw [cos_sum_re, hsum, hzN1, Even.neg_one_pow he, one_mul,
      div_self (sub_ne_zero.mpr hz1)]
    simp
  · rw [if_neg (by rw [Nat.odd_iff.mp ho]; norm_num)]
    have hz0 : z ≠ 0 := Complex.exp_ne_zero _
    have hzm1 : z - 1 ≠ 0 := sub_ne_zero.mpr hz1
    have hzim1 : z⁻¹ - 1 ≠ 0 := by
      intro hzi
      have h1 : z⁻¹ = 1 := by
        have := sub_eq_zero.mp hzi
        exact this
      apply hz1
      rw [← inv_inv z, h1, inv_one]
    have hconj : (starRingEnd ℂ) z = z⁻¹ := by
      rw [hzdef, ← Complex.exp_conj, ← Complex.exp_neg]
      congr 1
      rw [map_mul, Complex.conj_ofReal, Complex.conj_I]
      ring
    have hzz : z⁻¹ * z = 1 := inv_mul_cancel₀ hz0
    have hmul1 : (-z⁻¹ - 1) * z = -(1 + z) := by linear_combination -hzz
    have hmul2 : (z⁻¹ - 1) * z = 1 - z := by linear_combination hzz
    have hfrac : (-z⁻¹ - 1) / (z⁻¹ - 1) = (-(1 + z)) / (1 - z) := by
      rw [← hmul1, ← hmul2, mul_div_mul_right _ _ hz0]
    have hadd : ((-z - 1) / (z - 1)) + (starRingEnd ℂ) ((-z - 1) / (z - 1)) = 0 := by
      simp only [map_div₀, map_sub, map_neg, map_one, hconj]
      rw [hfrac]
      have hfix : (-(1 + z)) / (1 - z) = (1 + z) / (z - 1) := by
        rw [show (1 : ℂ) - z = -(z - 1) by ring, div_neg, neg_div, neg_neg]
      rw [hfix, div_add_div_same,
        show (-z - 1) + (1 + z) = (0 : ℂ) by ring, zero_div]
    have hre : (((-z - 1) / (z - 1))).re = 0 := by
      have h2re := Complex.add_conj ((-z - 1) / (z - 1))
      rw [hadd] at h2re
      have h0re : (2 : ℝ) * ((-z - 1) / (z - 1)).re = 0 := by exact_mod_cast h2re.symm
      linarith
    rw [cos_sum_re, hsum, hzN1, Odd.neg_one_pow ho, neg_one_mul]
    exact hre

lemma cw_cos_sum (N r : ℕ) (hN : 1 ≤ N) (hr : r ≤ 2 * N) :
    ∑ j ∈ Finset.range (N + 1), Real.cos (j * ((r : ℝ) * π / N)) / cw N j
      = if r = 0 ∨ r = 2 * N then (N : ℝ) else 0 := by
  have hNR : (N : ℝ) ≠ 0 := Nat.cast_ne_zero.mpr (by omega)
  have hsplit : ∑ j ∈ Finset.range (N + 1), Real.cos (j * ((r : ℝ) * π / N)) / cw N j
      = (∑ j ∈ Finset.range (N + 1), Real.cos (j * ((r : ℝ) * π / N)))
        - Real.cos (((0 : ℕ) : ℝ) * ((r : ℝ) * π / N)) / 2
        - Real.cos (((N : ℕ) : ℝ) * ((r : ℝ) * π / N)) / 2 := by
    have hpt : ∀ j ∈ Finset.range (N + 1),
        Real.cos (j * ((r : ℝ) * π / N)) / cw N j
          = Real.cos (j * ((r : ℝ) * π / N))
            - (if j = 0 then Real.cos ((j : ℝ) * ((r : ℝ) * π / N)) / 2 else 0)
            - (if j = N then Real.cos ((j : ℝ) * ((r : ℝ) * π / N)) / 2 else 0) := by
      intro j _
      unfold cw
      by_cases h0 : j = 0
      · subst h0
        rw [if_pos (Or.inl rfl), if_pos rfl, if_neg (by omega)]
        ring
      · by_cases hNe : j = N
        · subst hNe
          rw [if_pos (Or.inr rfl), if_neg h0, if_pos rfl]
          ring
        · rw [if_neg (by tauto), if_neg h0, if_neg hNe]
          ring
    rw [Finset.sum_congr rfl hpt, Finset.sum_sub_distrib, Finset.sum_sub_distrib,
      Finset.sum_ite_eq' (Finset.range (N + 1)) 0
        (fun j : ℕ => Real.cos ((j : ℝ) * ((r : ℝ) * π / N)) / 2),
      Finset.sum_ite_eq' (Finset.range (N + 1)) N
        (fun j : ℕ => Real.cos ((j : ℝ) * ((r : ℝ) * π / N)) / 2),
      if_pos (Finset.mem_range.mpr (by omega)),
      if_pos (Finset.mem_range.mpr (by omega))]
  rw [hsplit]
  have he0 : Real.cos (((0 : ℕ) : ℝ) * ((r : ℝ) * π / N)) = 1 := by norm_num
  have heN : Real.cos (((N : ℕ) : ℝ) * ((r : ℝ) * π / N)) = (-1 : ℝ) ^ r := by
    have hang : ((N : ℕ) : ℝ) * ((r : ℝ) * π / N) = (r : ℝ) * π := by
      field_simp
    rw [hang, cos_nat_pi]
  rw [he0, heN]
  by_cases h0 : r = 0
  · subst h0
    rw [if_pos (Or.inl rfl)]
    have hterm : ∀ j ∈ Finset.range (N + 1),
        Real.cos ((j : ℝ) * (((0 : ℕ) : ℝ) * π / N)) = 1 := by
      intro j _
      norm_num
    rw [Finset.sum_congr rfl hterm, Finset.sum_const, Finset.card_range]
    ring
  · by_cases h2N : r = 2 * N
    · subst h2N
      rw [if_pos (Or.inr rfl)]
      have hterm : ∀ j ∈ Finset.range (N + 1),
          Real.cos ((j : ℝ) * (((2 * N : ℕ) : ℝ) * π / N)) = 1 := by
        intro j _
        have hang : (j : ℝ) * (((2 * N : ℕ) : ℝ) * π / N) = (j : ℝ) * (2 * π) := by
          push_cast
          field_simp
          ring
        rw [hang, Real.cos_nat_mul_two_pi]
      rw [Finset.sum_congr rfl hterm, Finset.sum_const, Finset.card_range]
      have hpow : (-1 : ℝ) ^ (2 * N) = 1 := by
        rw [pow_mul]
        norm_num
      rw [hpow]
      ring
    · rw [if_neg (by tauto)]
      have hlt : 0 < r := Nat.pos_of_ne_zero h0
      have hlt2 : r < 2 * N := lt_of_le_of_ne hr h2N
      rw [fullCosSum N r hN hlt hlt2]
      rcases Nat.even_or_odd r with he | ho
      · rw [if_pos (Nat.even_iff.mp he), Even.neg_one_pow he]
        ring
      · rw [if_neg (by rw [Nat.odd_iff.mp ho]; norm_num), Odd.neg_one_pow ho]
        ring

lemma cos_mul_cos_eq (x y : ℝ) :
    Real.cos x * Real.cos y = (Real.cos (x + y) + Real.cos (x - y)) / 2 := by
  rw [Real.cos_add, Real.cos_sub]
  ring

lemma cheb_orth_aux (N k m : ℕ) (hN : 1 ≤ N) (hkm : k ≤ m) (hm : m ≤ N) :
    ∑ j ∈ Finset.range (N + 1),
        Real.cos (j * ((m : ℝ) * π / N)) * Real.cos (j * ((k : ℝ) * π / N)) / cw N j
      = if k = m then (N : ℝ) * cw N k / 2 else 0 := by
  have hpt : ∀ j ∈ Finset.range (N + 1),
      Real.cos (j * ((m : ℝ) * π / N)) * Real.cos (j * ((k : ℝ) * π / N)) / cw N j
        = (Real.cos (j * (((m + k : ℕ) : ℝ) * π / N)) / cw N j
           + Real.cos (j * (((m - k : ℕ) : ℝ) * π / N)) / cw N j) / 2 := by
    intro j _
    rw [cos_mul_cos_eq]
    have h1 : (j : ℝ) * ((m : ℝ) * π / N) + (j : ℝ) * ((k : ℝ) * π / N)
        = (j : ℝ) * (((m + k : ℕ) : ℝ) * π / N) := by
      push_cast
      ring
    have h2 : (j : ℝ) * ((m : ℝ) * π / N) - (j : ℝ) * ((k : ℝ) * π / N)
        = (j : ℝ) * (((m - k : ℕ) : ℝ) * π / N) := by
      rw [Nat.cast_sub hkm]
      ring
    rw [h1, h2]
    ring
  rw [Finset.sum_congr rfl hpt, ← Finset.sum_div, Finset.sum_add_distrib,
    cw_cos_sum N (m + k) hN (by omega), cw_cos_sum N (m - k) hN (by omega)]
  by_cases heq : k = m
  · rw [if_pos heq, heq, Nat.sub_self,
      if_pos (show (0 : ℕ) = 0 ∨ 0 = 2 * N from Or.inl rfl)]
    by_cases hm0 : m = 0
    · rw [hm0, if_pos (show 0 + 0 = 0 ∨ 0 + 0 = 2 * N from Or.inl rfl)]
      unfold cw
      rw [if_pos (Or.inl rfl)]
      ring
    · by_cases hmN : m = N
      · rw [hmN, if_pos (show N + N = 0 ∨ N + N = 2 * N from Or.inr (by omega))]
        unfold cw
        rw [if_pos (Or.inr rfl)]
        ring
      · rw [if_neg (show ¬(m + m = 0 ∨ m + m = 2 * N) by omega)]
        unfold cw
        rw [if_neg (show ¬(m = 0 ∨ m = N) by tauto)]
        ring
  · have hklt : k < m := lt_of_le_of_ne hkm heq
    rw [if_neg heq,
      if_neg (show ¬(m + k = 0 ∨ m + k = 2 * N) by omega),
      if_neg (show ¬(m - k = 0 ∨ m - k = 2 * N) by omega)]
    ring

lemma cheb_orth (N k m : ℕ) (hN : 1 ≤ N) (hk : k ≤ N) (hm : m ≤ N) :
    ∑ j ∈ Finset.range (N + 1),
        Real.cos (j * ((m : ℝ) * π / N)) * Real.cos (j * ((k : ℝ) * π / N)) / cw N j
      = if k = m then (N : ℝ) * cw N k / 2 else 0 := by
  rcases le_total k m with h | h
  · exact cheb_orth_aux N k m hN h hm
  · have hsym := cheb_orth_aux N m k hN h hk
    have hswap : ∑ j ∈ Finset.range (N + 1),
        Real.cos (j * ((m : ℝ) * π / N)) * Real.cos (j * ((k : ℝ) * π / N)) / cw N j
        = ∑ j ∈ Finset.range (N + 1),
            Real.cos (j * ((k : ℝ) * π / N)) * Real.cos (j * ((m : ℝ) * π / N)) / cw N j := by
      apply Finset.sum_congr rfl
      intro j _
      rw [mul_comm (Real.cos ((j : ℝ) * ((m : ℝ) * π / N)))]
    rw [hswap, hsym]
    by_cases heq : k = m
    · subst heq
      rw [if_pos rfl]
    · rw [if_neg (fun hh => heq hh.symm), if_neg heq]

lemma GLpoints_nat (N : ℕ) (h : 1 ≤ N) : GLpoints (N : ℤ) = some (GLgrid N) := by
  have h1 : ((N : ℤ) + 1).toNat = N + 1 := by omega
  unfold GLpoints GLgrid
  rw [if_neg (by omega), if_neg (by exact_mod_cast Nat.one_le_iff_ne_zero.mp h), h1]
  norm_num

/-! ### Unfolding `findCoeffs` on well-formed input -/

lemma findCoeffs_eq (U X : List ℝ) (N : ℕ) (hX : X.length = N + 1)
    (hU : N + 1 ≤ U.length) :
    findCoeffs U X = some ((List.range (N + 1)).map (fun k =>
      (2 / ((N : ℝ) * cw N k)) *
        ∑ j ∈ Finset.range (N + 1),
          U.getD j 0 * chebval (X.getD j 0) (mkD k) / cw N j)) := by
  simp only [findCoeffs, hX, Nat.add_sub_cancel]
  rw [if_neg (by omega), if_neg (by omega)]

/-! ### The claims -/

/-- C1: for every `N ≥ 1` and sequences `U`, `X` of length `N+1`,
`findCoeffs U X` returns the vector of length `N+1` whose entry `k` is
`(2 / (N * c_k)) * Σ_{j=0..N} U_j * T_k(X_j) / c_j`, with the weights
`c` of `cw` and `T_k` the `k`-th Chebyshev polynomial defined by the
three-term recurrence. -/
theorem findCoeffs_formula (N : ℕ) (_hN : 1 ≤ N) (U X : List ℝ)
    (hU : U.length = N + 1) (hX : X.length = N + 1) :
    ∃ uhat, findCoeffs U X = some uhat ∧ uhat.length = N + 1 ∧
      ∀ k, k ≤ N → uhat.getD k 0
        = (2 / ((N : ℝ) * cw N k)) *
            ∑ j ∈ Finset.range (N + 1),
              U.getD j 0 * chebT k (X.getD j 0) / cw N j := by
  refine ⟨_, findCoeffs_eq U X N hX (by omega), by simp, ?_⟩
  intro k hk
  rw [map_range_getD _ _ _ (by omega)]
  congr 1
  apply Finset.sum_congr rfl
  intro j _
  rw [chebval_mkD]

/-- C1 witness: instantiation at `N = 1`, `U = [0, 1]`, `X = [0, 1]`. -/
theorem findCoeffs_formula_witness :
    ∃ uhat, findCoeffs [(0 : ℝ), 1] [(0 : ℝ), 1] = some uhat ∧
      uhat.length = 1 + 1 ∧
      ∀ k, k ≤ 1 → uhat.getD k 0
        = (2 / ((1 : ℝ) * cw 1 k)) *
            ∑ j ∈ Finset.range (1 + 1),
              [(0 : ℝ), 1].getD j 0 * chebT k ([(0 : ℝ), 1].getD j 0) / cw 1 j := by
  have h := findCoeffs_formula 1 (by norm_num) [(0 : ℝ), 1] [(0 : ℝ), 1] rfl rfl
  push_cast at h
  exact h

/-- C2 counterexample: `U` longer than `X` (lengths 3 and 2), yet
`findCoeffs` succeeds instead of signaling, refuting the claim that
every length mismatch fails. -/
theorem findCoeffs_mismatch_cex :
    (findCoeffs [(1 : ℝ), 2, 3] [(-1 : ℝ), 1]).isSome = true := rfl

/-- C2 amended: `findCoeffs` performs no length validation; with a
nonempty grid and mismatched lengths it fails (with an index error)
exactly when `U` is shorter than `X`, and silently succeeds when `U` is
longer. -/
theorem findCoeffs_mismatch (U X : List ℝ) (h1 : 1 ≤ X.length)
    (_h2 : U.length ≠ X.length) :
    findCoeffs U X = none ↔ U.length < X.length := by
  constructor
  · intro h
    by_contra hc
    push_neg at hc
    rw [findCoeffs_eq U X (X.length - 1) (by omega) (by omega)] at h
    exact Option.noConfusion h
  · intro h
    simp only [findCoeffs]
    rw [if_neg (by omega), if_pos (by omega)]

/-- C2 witness: at `U := [1]`, `X := [0, 1]` the equivalence applies
with both sides true. -/
theorem findCoeffs_mismatch_witness :
    findCoeffs [(1 : ℝ)] [(0 : ℝ), 1] = none ↔
      [(1 : ℝ)].length < [(0 : ℝ), 1].length :=
  findCoeffs_mismatch [(1 : ℝ)] [(0 : ℝ), 1] (by norm_num) (by norm_num)

/-- C9: when `len U > len X ≥ 2`, `findCoeffs` succeeds, returns a
vector of length `len X`, and depends only on the first `len X` entries
of `U`: the trailing entries are silently ignored. -/
theorem findCoeffs_ignores_extra_U (U X : List ℝ) (hX : 2 ≤ X.length)
    (hU : X.length < U.length) :
    ∃ uhat, findCoeffs U X = some uhat ∧ uhat.length = X.length ∧
      findCoeffs U X = findCoeffs (U.take X.length) X := by
  have hX' : X.length = (X.length - 1) + 1 := by omega
  have htl : (U.take X.length).length = X.length := by
    rw [List.length_take]
    omega
  refine ⟨_, findCoeffs_eq U X (X.length - 1) (by omega) (by omega), ?_, ?_⟩
  · simp
    omega
  · rw [findCoeffs_eq U X (X.length - 1) (by omega) (by omega),
      findCoeffs_eq (U.take X.length) X (X.length - 1) (by omega) (by omega)]
    congr 1
    apply List.map_congr_left
    intro k _
    congr 1
    apply Finset.sum_congr rfl
    intro j hj
    rw [getD_take_lt U X.length j (by have := Finset.mem_range.mp hj; omega)]

/-- C9 witness: at `U := [5, 6, 7]`, `X := [-1, 1]`. -/
theorem findCoeffs_ignores_extra_U_witness :
    ∃ uhat, findCoeffs [(5 : ℝ), 6, 7] [(-1 : ℝ), 1] = some uhat ∧
      uhat.length = [(-1 : ℝ), 1].length ∧
      findCoeffs [(5 : ℝ), 6, 7] [(-1 : ℝ), 1]
        = findCoeffs ([(5 : ℝ), 6, 7].take [(-1 : ℝ), 1].length) [(-1 : ℝ), 1] :=
  findCoeffs_ignores_extra_U [(5 : ℝ), 6, 7] [(-1 : ℝ), 1] (by norm_num) (by norm_num)

/-- C10 counterexample: at the length-1 input `U = [1]`, `X = [1]` the
divisor `N * c_0` is zero (`N = 0`), yet `findCoeffs` returns a value
(numpy float division by zero yields `inf` with a warning, it does not
raise), refuting the claimed division-by-zero failure. -/
theorem findCoeffs_len_one_cex :
    (findCoeffs [(1 : ℝ)] [(1 : ℝ)]).isSome = true ∧
      ((1 : ℕ) - 1 : ℕ) * cw ((1 : ℕ) - 1) 0 = 0 := by
  constructor
  · rfl
  · simp

/-- C10 amended: with `len X ≥ 2` (and `U` long enough to index) every
divisor appearing in `findCoeffs` — the normalisations `N * c_k` and
the weights `c_j` — is nonzero and the call returns a value; for a
length-1 grid the divisor `N * c_k` is zero but `findCoeffs` still
returns a value rather than failing. -/
theorem findCoeffs_divisors (U X : List ℝ) (hX : 2 ≤ X.length)
    (hU : X.length ≤ U.length)
    (U1 X1 : List ℝ) (hX1 : X1.length = 1) (hU1 : 1 ≤ U1.length) :
    (∀ k, ((X.length - 1 : ℕ) : ℝ) * cw (X.length - 1) k ≠ 0) ∧
    (∀ j, cw (X.length - 1) j ≠ 0) ∧
    (findCoeffs U X).isSome = true ∧
    (((X1.length - 1 : ℕ) : ℝ) * cw (X1.length - 1) 0 = 0 ∧
      (findCoeffs U1 X1).isSome = true) := by
  refine ⟨?_, ?_, ?_, ?_, ?_⟩
  · intro k
    apply mul_ne_zero
    · exact Nat.cast_ne_zero.mpr (by omega)
    · exact cw_ne_zero _ _
  · intro j
    exact cw_ne_zero _ _
  · rw [findCoeffs_eq U X (X.length - 1) (by omega) (by omega)]
    rfl
  · rw [hX1]
    norm_num
  · rw [findCoeffs_eq U1 X1 0 (by omega) (by omega)]
    rfl

/-- C10 witness: instantiation at `U = [1, 2]`, `X = [-1, 1]` for the
regular part and `U1 = [1]`, `X1 = [1]` for the degenerate part. -/
theorem findCoeffs_divisors_witness :
    (∀ k, (([(-1 : ℝ), 1].length - 1 : ℕ) : ℝ)
        * cw ([(-1 : ℝ), 1].length - 1) k ≠ 0) ∧
    (∀ j, cw ([(-1 : ℝ), 1].length - 1) j ≠ 0) ∧
    (findCoeffs [(1 : ℝ), 2] [(-1 : ℝ), 1]).isSome = true ∧
    ((([(1 : ℝ)].length - 1 : ℕ) : ℝ) * cw ([(1 : ℝ)].length - 1) 0 = 0 ∧
      (findCoeffs [(1 : ℝ)] [(1 : ℝ)]).isSome = true) :=
  findCoeffs_divisors [(1 : ℝ), 2] [(-1 : ℝ), 1] (by norm_num) (by norm_num)
    [(1 : ℝ)] [(1 : ℝ)] (by norm_num) (by norm_num)

/-- C3 counterexample: `GLpoints (-1)` silently returns the empty
sequence (the `np.zeros(0)` array is built and the loop body never
runs), refuting the claim that every negative degree fails. -/
theorem GLpoints_neg_one_cex : GLpoints (-1) = some ([] : List ℝ) := rfl

/-- C3 amended: `GLpoints 0` fails (division by zero in the loop body)
and `GLpoints N` fails for every `N ≤ -2` (negative array size), but
`N = -1` silently yields the empty sequence; there is no explicit
argument check. -/
theorem GLpoints_nonpositive (N : ℤ) (h : N ≤ -2) :
    GLpoints 0 = none ∧ GLpoints N = none ∧ GLpoints (-1) = some [] := by
  refine ⟨rfl, ?_, rfl⟩
  unfold GLpoints
  rw [if_pos h]

/-- C3 witness: instantiation at `N = -2`. -/
theorem GLpoints_nonpositive_witness :
    GLpoints 0 = none ∧ GLpoints (-2) = none ∧ GLpoints (-1) = some [] :=
  GLpoints_nonpositive (-2) (by norm_num)

/-- C6: for every `N ≥ 1`, `GLpoints N` returns the sequence of length
`N+1` whose entry `j` is `-cos(π j / N)`; being a pure function of `N`,
the result is deterministic. -/
theorem GLpoints_formula (N : ℕ) (hN : 1 ≤ N) :
    ∃ X, GLpoints (N : ℤ) = some X ∧ X.length = N + 1 ∧
      ∀ j, j ≤ N → X.getD j 0 = -Real.cos (π * j / N) := by
  refine ⟨GLgrid N, GLpoints_nat N hN, GLgrid_length N, ?_⟩
  intro j hj
  exact GLgrid_getD N j hj

/-- C6 witness: instantiation at `N = 2`. -/
theorem GLpoints_formula_witness :
    ∃ X, GLpoints ((2 : ℕ) : ℤ) = some X ∧ X.length = 2 + 1 ∧
      ∀ j, j ≤ 2 → X.getD j 0 = -Real.cos (π * j / (2 : ℕ)) :=
  GLpoints_formula 2 (by norm_num)

/-- C7: for every `N ≥ 1` the sequence returned by `GLpoints` is
strictly increasing with first entry `-1` and last entry `1`. -/
theorem GLpoints_strict_mono (N : ℕ) (hN : 1 ≤ N) (X : List ℝ)
    (hX : GLpoints (N : ℤ) = some X) :
    X.getD 0 0 = -1 ∧ X.getD N 0 = 1 ∧
      ∀ i j, i < j → j ≤ N → X.getD i 0 < X.getD j 0 := by
  rw [GLpoints_nat N hN] at hX
  obtain rfl : GLgrid N = X := Option.some.inj hX
  have hNpos : (0 : ℝ) < N := by
    exact_mod_cast Nat.pos_of_ne_zero (by omega)
  refine ⟨?_, ?_, ?_⟩
  · rw [GLgrid_getD N 0 (by omega)]
    norm_num
  · rw [GLgrid_getD N N le_rfl]
    have h : π * N / N = π := by
      field_simp
    rw [h, Real.cos_pi]
    norm_num
  · intro i j hij hj
    rw [GLgrid_getD N i (by omega), GLgrid_getD N j hj]
    have hij' : (i : ℝ) < j := by exact_mod_cast hij
    have hj' : (j : ℝ) ≤ N := by exact_mod_cast hj
    apply neg_lt_neg
    apply Real.cos_lt_cos_of_nonneg_of_le_pi
    · positivity
    · rw [div_le_iff₀ hNpos]
      nlinarith [Real.pi_pos]
    · rw [div_lt_div_iff_of_pos_right hNpos]
      nlinarith [Real.pi_pos]

/-- C7 witness: instantiation at `N = 1`. -/
theorem GLpoints_strict_mono_witness :
    ((GLpoints ((1 : ℕ) : ℤ)).getD []).getD 0 0 = -1 ∧
      ((GLpoints ((1 : ℕ) : ℤ)).getD []).getD 1 0 = 1 ∧
      ∀ i j, i < j → j ≤ 1 →
        ((GLpoints ((1 : ℕ) : ℤ)).getD []).getD i 0
          < ((GLpoints ((1 : ℕ) : ℤ)).getD []).getD j 0 :=
  GLpoints_strict_mono 1 (by norm_num) ((GLpoints ((1 : ℕ) : ℤ)).getD []) rfl

/-- C8: the Gauss-Lobatto grid is antisymmetric about 0:
`X_j = -X_(N-j)`. -/
theorem GLpoints_antisym (N : ℕ) (hN : 1 ≤ N) (X : List ℝ)
    (hX : GLpoints (N : ℤ) = some X) :
    ∀ j, j ≤ N → X.getD j 0 = -X.getD (N - j) 0 := by
  rw [GLpoints_nat N hN] at hX
  obtain rfl : GLgrid N = X := Option.some.inj hX
  intro j hj
  rw [GLgrid_getD N j hj, GLgrid_getD N (N - j) (by omega)]
  have hNR : (N : ℝ) ≠ 0 := Nat.cast_ne_zero.mpr (by omega)
  have h : π * ((N - j : ℕ) : ℝ) / N = π - π * j / N := by
    rw [Nat.cast_sub hj]
    field_simp
    ring
  rw [h, Real.cos_pi_sub]
  ring

/-- C8 witness: instantiation at `N = 2`, `j = 1`. -/
theorem GLpoints_antisym_witness :
    ((GLpoints ((2 : ℕ) : ℤ)).getD []).getD 1 0
      = -((GLpoints ((2 : ℕ) : ℤ)).getD []).getD (2 - 1) 0 :=
  GLpoints_antisym 2 (by norm_num) ((GLpoints ((2 : ℕ) : ℤ)).getD []) rfl 1
    (by norm_num)

/-- C5: for a fixed grid `X` of length `N+1` and sample vectors `U1`,
`U2` of that length, `findCoeffs` is linear in the samples:
`findCoeffs (a*U1 + b*U2) X = a * findCoeffs U1 X + b * findCoeffs U2 X`
entrywise. -/
theorem findCoeffs_linear (N : ℕ) (_hN : 1 ≤ N) (a b : ℝ) (U1 U2 X : List ℝ)
    (h1 : U1.length = N + 1) (h2 : U2.length = N + 1) (hX : X.length = N + 1) :
    ∃ V1 V2 V,
      findCoeffs U1 X = some V1 ∧ findCoeffs U2 X = some V2 ∧
      findCoeffs (List.zipWith (fun u v => a * u + b * v) U1 U2) X = some V ∧
      V.length = N + 1 ∧
      ∀ k, k ≤ N → V.getD k 0 = a * V1.getD k 0 + b * V2.getD k 0 := by
  have hz : (List.zipWith (fun u v => a * u + b * v) U1 U2).length = N + 1 := by
    rw [List.length_zipWith, h1, h2]
    omega
  refine ⟨_, _, _, findCoeffs_eq U1 X N hX (by omega),
    findCoeffs_eq U2 X N hX (by omega),
    findCoeffs_eq _ X N hX (by omega), by simp, ?_⟩
  intro k hk
  rw [map_range_getD _ _ _ (by omega), map_range_getD _ _ _ (by omega),
    map_range_getD _ _ _ (by omega)]
  have hterm : ∀ j ∈ Finset.range (N + 1),
      (List.zipWith (fun u v => a * u + b * v) U1 U2).getD j 0
          * chebval (X.getD j 0) (mkD k) / cw N j
        = a * (U1.getD j 0 * chebval (X.getD j 0) (mkD k) / cw N j)
          + b * (U2.getD j 0 * chebval (X.getD j 0) (mkD k) / cw N j) := by
    intro j hj
    have hjlt := Finset.mem_range.mp hj
    rw [getD_zipWith _ _ _ _ (by omega) (by omega)]
    ring
  rw [Finset.sum_congr rfl hterm, Finset.sum_add_distrib,
    ← Finset.mul_sum, ← Finset.mul_sum]
  ring

/-- C5 witness: instantiation at `N = 1`, `a = 2`, `b = 3`,
`U1 = [1, 0]`, `U2 = [0, 1]`, `X = [-1, 1]`. -/
theorem findCoeffs_linear_witness :
    ∃ V1 V2 V,
      findCoeffs [(1 : ℝ), 0] [(-1 : ℝ), 1] = some V1 ∧
      findCoeffs [(0 : ℝ), 1] [(-1 : ℝ), 1] = some V2 ∧
      findCoeffs (List.zipWith (fun u v => (2 : ℝ) * u + (3 : ℝ) * v)
        [(1 : ℝ), 0] [(0 : ℝ), 1]) [(-1 : ℝ), 1] = some V ∧
      V.length = 1 + 1 ∧
      ∀ k, k ≤ 1 → V.getD k 0 = 2 * V1.getD k 0 + 3 * V2.getD k 0 :=
  findCoeffs_linear 1 (by norm_num) 2 3 [(1 : ℝ), 0] [(0 : ℝ), 1]
    [(-1 : ℝ), 1] rfl rfl rfl

/-- C4: sampling the Chebyshev polynomial `T m` (with `m ≤ N`) on the
Gauss-Lobatto grid `GLpoints N` and transforming recovers the unit
coefficient vector: entry `m` is `1` and all other entries are `0`
(exactly, in real arithmetic).  The constant-function case is `m = 0`,
since `T 0 = 1`. -/
theorem findCoeffs_reconstruction (N m : ℕ) (hN : 1 ≤ N) (hm : m ≤ N)
    (X : List ℝ) (hX : GLpoints (N : ℤ) = some X) :
    ∃ uhat, findCoeffs (X.map (chebT m)) X = some uhat ∧
      uhat.length = N + 1 ∧
      ∀ k, k ≤ N → uhat.getD k 0 = if k = m then 1 else 0 := by
  rw [GLpoints_nat N hN] at hX
  obtain rfl : GLgrid N = X := Option.some.inj hX
  have hXlen : (GLgrid N).length = N + 1 := GLgrid_length N
  have hUlen : ((GLgrid N).map (chebT m)).length = N + 1 := by
    rw [List.length_map, hXlen]
  refine ⟨_, findCoeffs_eq _ _ N hXlen (by omega), by simp, ?_⟩
  intro k hk
  rw [map_range_getD _ _ _ (by omega)]
  have hNR : (N : ℝ) ≠ 0 := Nat.cast_ne_zero.mpr (by omega)
  have hterm : ∀ j ∈ Finset.range (N + 1),
      ((GLgrid N).map (chebT m)).getD j 0
          * chebval ((GLgrid N).getD j 0) (mkD k) / cw N j
        = ((-1 : ℝ) ^ m * (-1 : ℝ) ^ k) *
            (Real.cos (j * ((m : ℝ) * π / N)) * Real.cos (j * ((k : ℝ) * π / N))
              / cw N j) := by
    intro j hj
    have hjN : j ≤ N := by
      have := Finset.mem_range.mp hj
      omega
    have hXj : (GLgrid N).getD j 0 = -Real.cos (π * j / N) := GLgrid_getD N j hjN
    rw [getD_map_lt _ _ _ (by omega), hXj, chebval_mkD, chebT_neg, chebT_neg,
      chebT_cos, chebT_cos]
    have ha1 : (m : ℝ) * (π * j / N) = (j : ℝ) * ((m : ℝ) * π / N) := by ring
    have ha2 : (k : ℝ) * (π * j / N) = (j : ℝ) * ((k : ℝ) * π / N) := by ring
    rw [ha1, ha2]
    ring
  rw [Finset.sum_congr rfl hterm, ← Finset.mul_sum, cheb_orth N k m hN hk hm]
  by_cases heq : k = m
  · subst heq
    rw [if_pos rfl, if_pos rfl]
    have h1 : ((-1 : ℝ) ^ k * (-1 : ℝ) ^ k) = 1 := by
      rw [← pow_add]
      exact Even.neg_one_pow ⟨k, rfl⟩
    rw [h1, one_mul]
    have hprod : (N : ℝ) * cw N k ≠ 0 := mul_ne_zero hNR (cw_ne_zero N k)
    field_simp
  · rw [if_neg heq, if_neg heq]
    ring

/-- C4 witness: instantiation at `N = 2`, `m = 1` on the concrete grid
returned by `GLpoints 2`. -/
theorem findCoeffs_reconstruction_witness :
    ∃ uhat, findCoeffs (((GLpoints ((2 : ℕ) : ℤ)).getD []).map (chebT 1))
        ((GLpoints ((2 : ℕ) : ℤ)).getD []) = some uhat ∧
      uhat.length = 2 + 1 ∧
      ∀ k, k ≤ 2 → uhat.getD k 0 = if k = 1 then 1 else 0 :=
  findCoeffs_reconstruction 2 1 (by norm_num) (by norm_num)
    ((GLpoints ((2 : ℕ) : ℤ)).getD []) rfl
